import Mathlib

/-!
Verification of the bigram language model notebook
(`bigram_language_model.ipynb`).

The Python source is shallowly embedded as follows.

* Python strings are Lean `String`s; `text.split(" ")` (which keeps empty
  pieces) is `splitOnSpace`, and `text.split()` (whitespace split dropping
  empty pieces) is `splitWs`; `" ".join(l)` is `joinSpace`.
* Python dictionaries are functions into `Option Nat`; a `KeyError` on
  `d[k]` corresponds to the lookup returning `none`.
* `get_probability` returns `Option ℚ` : `none` models the `KeyError`
  raised by `unigram_dict[context]` for an unseen context, and the
  `ZeroDivisionError` raised when the denominator is zero; otherwise it
  returns the exact rational value of the smoothed estimate.
* The module-level training script (building `all_words`, `low_freq`,
  `headlines_train_clean`, `unigrams`, `bigrams`, `vocab`) is parametrised
  by the training corpus and `min_freq`; the Python `set` `vocab` is a
  duplicate-free list, `set.add` is `List.insert`, `len(vocab)` is
  `List.length`.
* `calculate_perplexity` first collects the probabilities of all adjacent
  pairs (`probs_of`); if any lookup fails the whole call fails (`none`),
  mirroring the uncaught Python exception; otherwise it returns
  `exp((Σ -log p) / numberOfPairs)` as a real number.
* Sampling via `np.random.multinomial` / `np.argmax` in `sample_word` is
  modelled nondeterministically: any word of the candidate list whose
  probability is positive can be drawn.  `GenReach` is the set of
  sequences the generation loop in `generate_headline` can reach.
-/

/-- `UNK_TOKEN = "<UNK>"` from the notebook. -/
def UNK_TOKEN : String := "<UNK>"

/-- `START_TOKEN = "<START>"` from the notebook. -/
def START_TOKEN : String := "<START>"

/-- `STOP_TOKEN = "<STOP>"` from the notebook. -/
def STOP_TOKEN : String := "<STOP>"

/-- Membership in Python `string.punctuation`, i.e. the ASCII ranges
`!`..`/`, `:`..`@`, `[`..` ``, and the four characters from code 123
to 126. -/
def isPunct (c : Char) : Bool :=
  (33 ≤ c.toNat && c.toNat ≤ 47) || (58 ≤ c.toNat && c.toNat ≤ 64) ||
  (91 ≤ c.toNat && c.toNat ≤ 96) || (123 ≤ c.toNat && c.toNat ≤ 126)

/-- `regex.sub('', s)` with `regex = re.compile('[%s]' % re.escape(string.punctuation))`:
delete every punctuation character. -/
def stripPunct (s : String) : String :=
  String.mk (s.data.filter (fun c => !(isPunct c)))

/-- `h.split("\n")[0]`: the part of the string before the first newline. -/
def firstLine (h : String) : String :=
  String.mk (h.data.takeWhile (fun c => c ≠ '\n'))

/-- The per-line preprocessing `regex.sub('', h.split("\n")[0])`. -/
def preprocess (h : String) : String := stripPunct (firstLine h)

/-- Split a character list at every character satisfying `p`, keeping
empty pieces (the semantics of Python `str.split(sep)` with an explicit
separator). -/
def splitCharsBy (p : Char → Bool) : List Char → List String
  | [] => [""]
  | c :: cs =>
    match splitCharsBy p cs with
    | [] => [""]
    | t :: ts => if p c then "" :: t :: ts else String.mk (c :: t.data) :: ts

/-- Python `text.split(" ")`: split at each single space, keeping empty
pieces (so `"".split(" ") == [""]`). -/
def splitOnSpace (s : String) : List String :=
  splitCharsBy (fun c => c = ' ') s.data

/-- Python `text.split()` (no argument): split on whitespace runs and drop
empty pieces (so `"".split() == []`). -/
def splitWs (s : String) : List String :=
  (splitCharsBy (fun c => c.isWhitespace) s.data).filter (fun t => t ≠ "")

/-- Python `" ".join(l)`. -/
def joinSpace : List String → String
  | [] => ""
  | [t] => t
  | t :: t₂ :: ts => t ++ " " ++ joinSpace (t₂ :: ts)

/-- A Python dictionary with string keys and integer counts; `none` means
the key is absent. -/
abbrev UniDict : Type := String → Option Nat

/-- A Python dictionary keyed by bigram pairs. -/
abbrev BiDict : Type := String × String → Option Nat

/-- The empty dictionary `{}`. -/
def emptyUni : UniDict := fun _ => none

/-- The empty dictionary `{}`. -/
def emptyBi : BiDict := fun _ => none

/-- Dictionary assignment `d[k] = v`. -/
def uniInsert (d : UniDict) (k : String) (v : Nat) : UniDict :=
  fun x => if x = k then some v else d x

/-- Dictionary assignment `d[k] = v`. -/
def biInsert (d : BiDict) (k : String × String) (v : Nat) : BiDict :=
  fun x => if x = k then some v else d x

/-- `d[k]` read with a default of `0` (as in `d[k] if k in d else 0`). -/
def getOr0 (o : Option Nat) : Nat := o.getD 0

/-- `tokens = [START_TOKEN] + text.split(" ") + [STOP_TOKEN]`, as built by
`count_unigrams`, `count_bigrams` and `calculate_perplexity`. -/
def wrapTokens (text : String) : List String :=
  [START_TOKEN] ++ splitOnSpace text ++ [STOP_TOKEN]

/-- One loop iteration of `count_unigrams`: absent keys are set to `1`,
present keys are incremented. -/
def uniStep (d : UniDict) (t : String) : UniDict :=
  match d t with
  | none => uniInsert d t 1
  | some n => uniInsert d t (n + 1)

/-- `count_unigrams(text, unigram_dict)` from the notebook: count every
token of the boundary-wrapped token list. -/
def count_unigrams (text : String) (d : UniDict) : UniDict :=
  (wrapTokens text).foldl uniStep d

/-- One loop iteration of `count_bigrams`. -/
def biStep (d : BiDict) (t : String × String) : BiDict :=
  match d t with
  | none => biInsert d t 1
  | some n => biInsert d t (n + 1)

/-- The adjacent pairs `(tokens[i], tokens[i+1])` of the boundary-wrapped
token list. -/
def pairsOf (text : String) : List (String × String) :=
  (wrapTokens text).zip (wrapTokens text).tail

/-- `count_bigrams(text, bigram_dict)` from the notebook. -/
def count_bigrams (text : String) (d : BiDict) : BiDict :=
  (pairsOf text).foldl biStep d

/-- `get_probability(target, context, unigram_dict, bigram_dict, alpha, vocab_size)`:
the bigram count falls back to `0` when the pair is absent, the unigram
lookup `unigram_dict[context]` raises `KeyError` when the context is
absent (modelled as `none`), and a zero denominator raises
`ZeroDivisionError` (also `none`); otherwise the smoothed estimate
`(bigram + alpha) / (unigram_dict[context] + vocab_size*alpha)` is
returned exactly. -/
def get_probability (target context : String) (unigram_dict : UniDict)
    (bigram_dict : BiDict) (alpha : ℚ) (vocab_size : Nat) : Option ℚ :=
  let bigram : Nat := getOr0 (bigram_dict (context, target))
  match unigram_dict context with
  | none => none
  | some u =>
    if (u : ℚ) + vocab_size * alpha = 0 then none
    else some (((bigram : ℚ) + alpha) / ((u : ℚ) + vocab_size * alpha))

/-- `all_words`: unigram counts of the raw training corpus, accumulated by
the loop `for h in headlines_train: count_unigrams(h, all_words)`. -/
def all_words (corpus : List String) : UniDict :=
  corpus.foldl (fun d h => count_unigrams h d) emptyUni

/-- Membership in the set `low_freq` built by the loop over
`all_words.items()`: a token is low-frequency iff it has an entry in
`all_words` and its count is `≤ min_freq`. -/
def low_freq (corpus : List String) (min_freq : Nat) (t : String) : Bool :=
  match all_words corpus t with
  | some c => c ≤ min_freq
  | none => false

/-- `replace_text_train(text)`: rebuild the line, replacing each
whitespace-split token that is in `low_freq` by `UNK_TOKEN`. -/
def replace_text_train (corpus : List String) (min_freq : Nat)
    (text : String) : String :=
  joinSpace ((splitWs text).map
    (fun t => if low_freq corpus min_freq t then UNK_TOKEN else t))

/-- `headlines_train_clean = [replace_text_train(h) for h in headlines_train]`. -/
def headlines_clean (corpus : List String) (min_freq : Nat) : List String :=
  corpus.map (replace_text_train corpus min_freq)

/-- `unigrams`: the unigram dictionary built from the cleaned corpus. -/
def unigrams (corpus : List String) (min_freq : Nat) : UniDict :=
  (headlines_clean corpus min_freq).foldl (fun d h => count_unigrams h d) emptyUni

/-- `bigrams`: the bigram dictionary built from the cleaned corpus. -/
def bigrams (corpus : List String) (min_freq : Nat) : BiDict :=
  (headlines_clean corpus min_freq).foldl (fun d h => count_bigrams h d) emptyBi

/-- `vocab`: the set of all tokens of the cleaned corpus (split on single
spaces), plus `START_TOKEN` and `STOP_TOKEN` added by `vocab.add`.  The
Python set is modelled as a duplicate-free list; `List.insert` adds an
element exactly when it is absent, like `set.add`. -/
def vocab (corpus : List String) (min_freq : Nat) : List String :=
  List.insert STOP_TOKEN (List.insert START_TOKEN
    (((headlines_clean corpus min_freq).map splitOnSpace).flatten.dedup))

/-- `replace_text_dev(text)`: replace each whitespace-split token that is
not in `vocab` by `UNK_TOKEN`. -/
def replace_text_dev (corpus : List String) (min_freq : Nat)
    (text : String) : String :=
  joinSpace ((splitWs text).map
    (fun t => if t ∈ vocab corpus min_freq then t else UNK_TOKEN))

/-- Sequence a list of optional values; `none` as soon as one entry is
`none` (an uncaught exception aborts the whole computation). -/
def seqOpt : List (Option ℚ) → Option (List ℚ)
  | [] => some []
  | none :: _ => none
  | some x :: rest => (seqOpt rest).map (fun l => x :: l)

/-- The probabilities `get_probability(tokens[i+1], tokens[i], ...)`
computed by the loop of `calculate_perplexity`; `none` if any iteration
raises. -/
def probs_of (text : String) (unigram_dict : UniDict) (bigram_dict : BiDict)
    (alpha : ℚ) (vocab_size : Nat) : Option (List ℚ) :=
  seqOpt ((pairsOf text).map
    (fun pr => get_probability pr.2 pr.1 unigram_dict bigram_dict alpha vocab_size))

/-- `calculate_perplexity(text, unigram_dict, bigram_dict, alpha, vocab_size)`:
`exp(log_sum / (len(tokens) - 1))` where `log_sum` accumulates
`-log(prob)` over the adjacent pairs; the number of pairs equals the
length of the probability list. -/
noncomputable def calculate_perplexity (text : String)
    (unigram_dict : UniDict) (bigram_dict : BiDict) (alpha : ℚ)
    (vocab_size : Nat) : Option ℝ :=
  (probs_of text unigram_dict bigram_dict alpha vocab_size).map
    (fun ps => Real.exp (((ps.map (fun p : ℚ => -Real.log (p : ℝ))).sum) / (ps.length : ℝ)))

/-- The sequences reachable by the loop of
`generate_headline(unigram_dict, bigram_dict, alpha)`.  The sentence
starts as `[START_TOKEN]`; while the last token is not `STOP_TOKEN`, the
probabilities of all words of `vocab` given the last token are computed
(every one must be computable, i.e. no `KeyError`), and `sample_word`
appends a word drawn from the candidate list — modelled
nondeterministically, any word with positive probability can be drawn. -/
inductive GenReach (unigram_dict : UniDict) (bigram_dict : BiDict)
    (alpha : ℚ) (v : List String) : List String → Prop where
  | init : GenReach unigram_dict bigram_dict alpha v [START_TOKEN]
  | step (s : List String) (c w : String)
      (hreach : GenReach unigram_dict bigram_dict alpha v s)
      (hlast : s.getLast? = some c)
      (hnotstop : c ≠ STOP_TOKEN)
      (hall : ∀ x ∈ v, (get_probability x c unigram_dict bigram_dict alpha v.length).isSome)
      (hw : w ∈ v)
      (hp : ∃ p, get_probability w c unigram_dict bigram_dict alpha v.length = some p ∧ 0 < p) :
      GenReach unigram_dict bigram_dict alpha v (s ++ [w])

/-! ### Counting lemmas

The imperative dictionary updates of `count_unigrams` / `count_bigrams`
compute, for every key, the number of occurrences of that key in the
processed token lists. -/

theorem uniStep_apply (d : UniDict) (t w : String) :
    uniStep d t w = if w = t then some (getOr0 (d w) + 1) else d w := by
  unfold uniStep uniInsert
  cases h : d t with
  | none =>
    by_cases hw : w = t
    · subst hw; simp [h, getOr0]
    · simp [hw]
  | some n =>
    by_cases hw : w = t
    · subst hw; simp [h, getOr0]
    · simp [hw]

theorem biStep_apply (d : BiDict) (t w : String × String) :
    biStep d t w = if w = t then some (getOr0 (d w) + 1) else d w := by
  unfold biStep biInsert
  cases h : d t with
  | none =>
    by_cases hw : w = t
    · subst hw; simp [h, getOr0]
    · simp [hw]
  | some n =>
    by_cases hw : w = t
    · subst hw; simp [h, getOr0]
    · simp [hw]

theorem getOr0_foldl_uniStep (ts : List String) (d : UniDict) (w : String) :
    getOr0 ((ts.foldl uniStep d) w) = getOr0 (d w) + ts.count w := by
  induction ts generalizing d with
  | nil => simp
  | cons t ts ih =>
    rw [List.foldl_cons, ih, uniStep_apply, List.count_cons]
    by_cases hw : w = t
    · simp [hw, getOr0]; omega
    · simp [hw, Ne.symm]

theorem foldl_uniStep_none (ts : List String) (d : UniDict) (w : String) :
    (ts.foldl uniStep d) w = none ↔ d w = none ∧ ts.count w = 0 := by
  induction ts generalizing d with
  | nil => simp
  | cons t ts ih =>
    rw [List.foldl_cons, ih, uniStep_apply, List.count_cons]
    by_cases hw : w = t
    · simp [hw]
    · have hbeq : (w == t) = false := beq_false_of_ne hw
      simp [hw, hbeq]
      exact fun _ _ h => hw h.symm

theorem getOr0_foldl_biStep (ts : List (String × String)) (d : BiDict)
    (w : String × String) :
    getOr0 ((ts.foldl biStep d) w) = getOr0 (d w) + ts.count w := by
  induction ts generalizing d with
  | nil => simp
  | cons t ts ih =>
    rw [List.foldl_cons, ih, biStep_apply, List.count_cons]
    by_cases hw : w = t
    · simp [hw, getOr0]; omega
    · simp [hw, Ne.symm]

theorem foldl_biStep_none (ts : List (String × String)) (d : BiDict)
    (w : String × String) :
    (ts.foldl biStep d) w = none ↔ d w = none ∧ ts.count w = 0 := by
  induction ts generalizing d with
  | nil => simp
  | cons t ts ih =>
    rw [List.foldl_cons, ih, biStep_apply, List.count_cons]
    by_cases hw : w = t
    · simp [hw]
    · have hbeq : (w == t) = false := beq_false_of_ne hw
      simp [hw, hbeq]
      exact fun _ _ h => hw h.symm

/-- Total number of occurrences of token `w` in the boundary-wrapped lines. -/
def uniTotal (lines : List String) (w : String) : Nat :=
  (lines.map (fun h => (wrapTokens h).count w)).sum

/-- Total number of occurrences of the adjacent pair `w` in the
boundary-wrapped lines. -/
def biTotal (lines : List String) (w : String × String) : Nat :=
  (lines.map (fun h => (pairsOf h).count w)).sum

theorem getOr0_uniFold (lines : List String) (d : UniDict) (w : String) :
    getOr0 ((lines.foldl (fun d h => count_unigrams h d) d) w)
      = getOr0 (d w) + uniTotal lines w := by
  induction lines generalizing d with
  | nil => simp [uniTotal]
  | cons h lines ih =>
    rw [List.foldl_cons, ih]
    unfold count_unigrams
    rw [getOr0_foldl_uniStep]
    simp [uniTotal]
    omega

theorem uniFold_none (lines : List String) (d : UniDict) (w : String) :
    (lines.foldl (fun d h => count_unigrams h d) d) w = none
      ↔ d w = none ∧ uniTotal lines w = 0 := by
  induction lines generalizing d with
  | nil => simp [uniTotal]
  | cons h lines ih =>
    rw [List.foldl_cons, ih]
    unfold count_unigrams
    rw [foldl_uniStep_none]
    simp [uniTotal]
    tauto

theorem getOr0_biFold (lines : List String) (d : BiDict) (w : String × String) :
    getOr0 ((lines.foldl (fun d h => count_bigrams h d) d) w)
      = getOr0 (d w) + biTotal lines w := by
  induction lines generalizing d with
  | nil => simp [biTotal]
  | cons h lines ih =>
    rw [List.foldl_cons, ih]
    unfold count_bigrams
    rw [getOr0_foldl_biStep]
    simp [biTotal]
    omega

theorem biFold_none (lines : List String) (d : BiDict) (w : String × String) :
    (lines.foldl (fun d h => count_bigrams h d) d) w = none
      ↔ d w = none ∧ biTotal lines w = 0 := by
  induction lines generalizing d with
  | nil => simp [biTotal]
  | cons h lines ih =>
    rw [List.foldl_cons, ih]
    unfold count_bigrams
    rw [foldl_biStep_none]
    simp [biTotal]
    tauto

theorem unigrams_getOr0 (corpus : List String) (minf : Nat) (w : String) :
    getOr0 (unigrams corpus minf w) = uniTotal (headlines_clean corpus minf) w := by
  unfold unigrams
  rw [getOr0_uniFold]
  simp [emptyUni, getOr0]

theorem unigrams_none (corpus : List String) (minf : Nat) (w : String) :
    unigrams corpus minf w = none ↔ uniTotal (headlines_clean corpus minf) w = 0 := by
  unfold unigrams
  rw [uniFold_none]
  simp [emptyUni]

theorem all_words_getOr0 (corpus : List String) (w : String) :
    getOr0 (all_words corpus w) = uniTotal corpus w := by
  unfold all_words
  rw [getOr0_uniFold]
  simp [emptyUni, getOr0]

theorem all_words_none (corpus : List String) (w : String) :
    all_words corpus w = none ↔ uniTotal corpus w = 0 := by
  unfold all_words
  rw [uniFold_none]
  simp [emptyUni]

theorem bigrams_getOr0 (corpus : List String) (minf : Nat) (w : String × String) :
    getOr0 (bigrams corpus minf w) = biTotal (headlines_clean corpus minf) w := by
  unfold bigrams
  rw [getOr0_biFold]
  simp [emptyBi, getOr0]

/-- In any token list, the pair `(c, t)` occurs at adjacent positions at
most as often as `c` occurs. -/
theorem count_zip_tail_le (l : List String) (c t : String) :
    ((l.zip l.tail).count (c, t)) ≤ l.count c := by
  induction l with
  | nil => simp
  | cons a l ih =>
    cases l with
    | nil => simp
    | cons b l' =>
      have hz : ((a :: b :: l').zip (a :: b :: l').tail)
          = (a, b) :: ((b :: l').zip (b :: l').tail) := by simp
      rw [hz, List.count_cons, List.count_cons]
      simp only [beq_iff_eq]
      by_cases h : (a, b) = (c, t)
      · have hca : a = c := congrArg Prod.fst h
        rw [if_pos h, if_pos hca]
        omega
      · rw [if_neg h]
        by_cases hca : a = c
        · rw [if_pos hca]
          omega
        · rw [if_neg hca]
          omega

/-- Per line, a bigram with context `c` is counted at most as often as the
unigram `c`. -/
theorem pairs_count_le (text : String) (c t : String) :
    (pairsOf text).count (c, t) ≤ (wrapTokens text).count c := by
  unfold pairsOf
  exact count_zip_tail_le _ c t

/-- Corpus-wide, the count of any bigram is at most the unigram count of
its context. -/
theorem biTotal_le_uniTotal (lines : List String) (c t : String) :
    biTotal lines (c, t) ≤ uniTotal lines c := by
  unfold biTotal uniTotal
  induction lines with
  | nil => simp
  | cons h lines ih =>
    simp only [List.map_cons, List.sum_cons]
    exact Nat.add_le_add (pairs_count_le h c t) ih

theorem bigrams_le_unigrams (corpus : List String) (minf : Nat) (c t : String) :
    getOr0 (bigrams corpus minf (c, t)) ≤ getOr0 (unigrams corpus minf c) := by
  rw [bigrams_getOr0, unigrams_getOr0]
  exact biTotal_le_uniTotal _ c t

/-! ### Estimator lemmas -/

theorem denom_pos (u V : Nat) (alpha : ℚ) (ha : 0 < alpha) (hV : 1 ≤ V) :
    (0:ℚ) < (u:ℚ) + (V:ℚ) * alpha := by
  have h1 : (1:ℚ) ≤ (V:ℚ) := by exact_mod_cast hV
  have h3 : (0:ℚ) ≤ (u:ℚ) := Nat.cast_nonneg u
  nlinarith

theorem get_probability_eq (target context : String) (uni : UniDict)
    (big : BiDict) (alpha : ℚ) (V u : Nat) (h : uni context = some u)
    (hd : (u:ℚ) + (V:ℚ) * alpha ≠ 0) :
    get_probability target context uni big alpha V
      = some (((getOr0 (big (context, target)) : ℚ) + alpha) / ((u:ℚ) + (V:ℚ) * alpha)) := by
  unfold get_probability
  rw [h]
  simp [hd]

theorem get_probability_pos (b u V : Nat) (alpha : ℚ) (ha : 0 < alpha) (hV : 1 ≤ V) :
    (0:ℚ) < ((b:ℚ) + alpha) / ((u:ℚ) + (V:ℚ) * alpha) := by
  apply div_pos
  · have : (0:ℚ) ≤ (b:ℚ) := Nat.cast_nonneg b
    linarith
  · exact denom_pos u V alpha ha hV

theorem get_probability_le_one (b u V : Nat) (alpha : ℚ) (ha : 0 < alpha)
    (hV : 1 ≤ V) (hbu : b ≤ u) :
    ((b:ℚ) + alpha) / ((u:ℚ) + (V:ℚ) * alpha) ≤ 1 := by
  rw [div_le_one (denom_pos u V alpha ha hV)]
  have h1 : (b:ℚ) ≤ (u:ℚ) := by exact_mod_cast hbu
  have h2 : (1:ℚ) ≤ (V:ℚ) := by exact_mod_cast hV
  nlinarith

/-! ### Vocabulary lemmas -/

theorem mem_vocab_iff (corpus : List String) (minf : Nat) (w : String) :
    w ∈ vocab corpus minf ↔
      w = STOP_TOKEN ∨ w = START_TOKEN ∨
      ∃ line ∈ headlines_clean corpus minf, w ∈ splitOnSpace line := by
  unfold vocab
  simp [List.mem_insert_iff, List.mem_dedup, List.mem_flatten]

theorem vocab_nodup (corpus : List String) (minf : Nat) :
    (vocab corpus minf).Nodup := by
  unfold vocab
  exact ((List.nodup_dedup _).insert).insert

theorem start_mem_vocab (corpus : List String) (minf : Nat) :
    START_TOKEN ∈ vocab corpus minf := by
  rw [mem_vocab_iff]
  exact Or.inr (Or.inl rfl)

theorem stop_mem_vocab (corpus : List String) (minf : Nat) :
    STOP_TOKEN ∈ vocab corpus minf := by
  rw [mem_vocab_iff]
  exact Or.inl rfl

theorem two_le_vocab_length (corpus : List String) (minf : Nat) :
    2 ≤ (vocab corpus minf).length := by
  have hnd := vocab_nodup corpus minf
  have hsub : ({START_TOKEN, STOP_TOKEN} : Finset String) ⊆ (vocab corpus minf).toFinset := by
    intro x hx
    rcases Finset.mem_insert.mp hx with h | h
    · subst h
      exact List.mem_toFinset.mpr (start_mem_vocab corpus minf)
    · rw [Finset.mem_singleton] at h
      subst h
      exact List.mem_toFinset.mpr (stop_mem_vocab corpus minf)
  have hcard : ({START_TOKEN, STOP_TOKEN} : Finset String).card = 2 := by decide
  calc 2 = ({START_TOKEN, STOP_TOKEN} : Finset String).card := hcard.symm
    _ ≤ (vocab corpus minf).toFinset.card := Finset.card_le_card hsub
    _ = (vocab corpus minf).length := List.toFinset_card_of_nodup hnd

theorem uniTotal_pos_of_mem (lines : List String) (line w : String)
    (hline : line ∈ lines) (hw : w ∈ wrapTokens line) :
    0 < uniTotal lines w := by
  unfold uniTotal
  have hpos : 0 < (wrapTokens line).count w := List.count_pos_iff.mpr hw
  have hmem : (wrapTokens line).count w ∈ lines.map (fun h => (wrapTokens h).count w) :=
    List.mem_map.mpr ⟨line, hline, rfl⟩
  have := List.single_le_sum (l := lines.map (fun h => (wrapTokens h).count w))
    (fun x _ => Nat.zero_le x) _ hmem
  omega

/-- Every vocabulary token of a nonempty corpus has an entry in
`unigrams`. -/
theorem vocab_unigrams_isSome (corpus : List String) (minf : Nat) (w : String)
    (hc : corpus ≠ []) (hw : w ∈ vocab corpus minf) :
    ∃ u, unigrams corpus minf w = some u := by
  have hclean : headlines_clean corpus minf ≠ [] := by
    unfold headlines_clean
    simpa using hc
  obtain ⟨line₀, hline₀⟩ : ∃ line, line ∈ headlines_clean corpus minf := by
    cases h : headlines_clean corpus minf with
    | nil => exact absurd h hclean
    | cons a l => exact ⟨a, h ▸ List.mem_cons_self a l⟩
  have hpos : 0 < uniTotal (headlines_clean corpus minf) w := by
    rcases (mem_vocab_iff corpus minf w).mp hw with h | h | ⟨line, hline, hmem⟩
    · subst h
      exact uniTotal_pos_of_mem _ line₀ _ hline₀ (by simp [wrapTokens])
    · subst h
      exact uniTotal_pos_of_mem _ line₀ _ hline₀ (by simp [wrapTokens])
    · exact uniTotal_pos_of_mem _ line _ hline (by simp [wrapTokens, hmem])
  cases h : unigrams corpus minf w with
  | none =>
    rw [unigrams_none] at h
    omega
  | some u => exact ⟨u, rfl⟩

/-! ### Concrete corpora used by witnesses and counterexamples -/

/-- The training corpus of the end-to-end scenario in the specification. -/
def toyCorpus : List String := ["the cat sat", "the dog ran"]

/-- A one-line corpus. -/
def oneCorpus : List String := ["a"]

/-! ### Claims -/

/-- C1: for every target token and every context token present in
`UnigramCounts`, `probability(target, context)` equals
`(BigramCounts[(context,target)] + alpha) / (UnigramCounts[context] + |Vocabulary| * alpha)`
with an absent bigram contributing count `0` (stated for a valid
configuration, `alpha > 0` and a nonempty vocabulary, under which the
denominator is nonzero); and in the end-to-end scenario with training
corpus `["the cat sat", "the dog ran"]`, `min_freq = 0`, `alpha = 1`, the
vocabulary has size `7` and `probability("the", START) = 3/9 = 1/3`. -/
theorem c1_probability_formula :
    (∀ (target context : String) (uni : UniDict) (big : BiDict) (alpha : ℚ)
        (V u : Nat), 0 < alpha → 1 ≤ V → uni context = some u →
        get_probability target context uni big alpha V
          = some (((getOr0 (big (context, target)) : ℚ) + alpha)
              / ((u:ℚ) + (V:ℚ) * alpha)))
    ∧ (vocab toyCorpus 0).length = 7
    ∧ get_probability "the" START_TOKEN (unigrams toyCorpus 0)
        (bigrams toyCorpus 0) 1 (vocab toyCorpus 0).length = some (1/3) := by
  refine ⟨?_, by decide, ?_⟩
  · intro target context uni big alpha V u ha hV h
    exact get_probability_eq target context uni big alpha V u h
      (ne_of_gt (denom_pos u V alpha ha hV))
  · have hu : unigrams toyCorpus 0 START_TOKEN = some 2 := by decide
    have hb : bigrams toyCorpus 0 (START_TOKEN, "the") = some 2 := by decide
    have hlen : (vocab toyCorpus 0).length = 7 := by decide
    rw [hlen, get_probability_eq "the" START_TOKEN _ _ 1 7 2 hu (by norm_num), hb]
    norm_num [getOr0]

/-- Witness for C1: the general formula applied to the scenario corpus with
`target = "dog"`, `context = START`, whose unigram count is `2` and
vocabulary size `7`. -/
theorem c1_witness :
    (0:ℚ) < 1 ∧ 1 ≤ 7 ∧ unigrams toyCorpus 0 START_TOKEN = some 2 ∧
    get_probability "dog" START_TOKEN (unigrams toyCorpus 0) (bigrams toyCorpus 0) 1 7
      = some (((getOr0 (bigrams toyCorpus 0 (START_TOKEN, "dog")) : ℚ) + 1)
          / ((2:ℚ) + (7:ℚ) * 1)) :=
  ⟨by decide, by decide,
   by decide,
   c1_probability_formula.1 "dog" START_TOKEN (unigrams toyCorpus 0)
     (bigrams toyCorpus 0) 1 7 2 (by decide) (by decide) (by decide)⟩

/-- C2 counterexample: for a context never seen in training the estimator
does not return the positive smoothing-only value `alpha/(|V|*alpha)`; the
lookup `unigram_dict[context]` raises `KeyError` (modelled as `none`).
Here the claim would predict the value `1/5`. -/
theorem c2_counterexample :
    get_probability "cat" "orange" emptyUni emptyBi 1 5 = none := rfl

/-- C2 (amended): when the context token is absent from `UnigramCounts`,
`get_probability` fails (`KeyError` on `unigram_dict[context]`, modelled as
`none`); the count-0 fallback exists only for the bigram lookup, not for
the context unigram lookup. -/
theorem c2_unknown_context_fails (target context : String) (uni : UniDict)
    (big : BiDict) (alpha : ℚ) (V : Nat) (h : uni context = none) :
    get_probability target context uni big alpha V = none := by
  unfold get_probability
  rw [h]

/-- Witness for C2 (amended) at a concrete unseen context. -/
theorem c2_witness :
    emptyUni "purple" = none ∧
    get_probability "dog" "purple" emptyUni emptyBi 1 7 = none :=
  ⟨rfl, c2_unknown_context_fails "dog" "purple" emptyUni emptyBi 1 7 rfl⟩

/-- C9 counterexample: nothing rejects a configuration with
`alpha ≤ 0`; the estimator happily computes a probability with
`alpha = 0`, and for an unseen bigram that probability is `0`,
contradicting both the claimed rejection and the positivity guarantee it
was meant to protect. -/
theorem c9_counterexample :
    get_probability "b" START_TOKEN (unigrams oneCorpus 0) (bigrams oneCorpus 0) 0 3
      = some 0 := by
  have hu : unigrams oneCorpus 0 START_TOKEN = some 1 := by decide
  have hb : bigrams oneCorpus 0 (START_TOKEN, "b") = none := by decide
  rw [get_probability_eq "b" START_TOKEN _ _ 0 3 1 hu (by norm_num), hb]
  norm_num [getOr0]

/-- C9 (amended): the notebook performs no validation of `alpha`
whatsoever; for any `alpha ≤ 0`, whenever the context lookup succeeds and
the denominator is nonzero, `get_probability` still computes and returns
the smoothed ratio instead of the configuration being rejected. -/
theorem c9_no_alpha_validation (target context : String) (uni : UniDict)
    (big : BiDict) (alpha : ℚ) (V u : Nat) (ha : alpha ≤ 0)
    (h : uni context = some u) (hd : (u:ℚ) + (V:ℚ) * alpha ≠ 0) :
    get_probability target context uni big alpha V
      = some (((getOr0 (big (context, target)) : ℚ) + alpha)
          / ((u:ℚ) + (V:ℚ) * alpha)) :=
  get_probability_eq target context uni big alpha V u h hd

/-- Witness for C9 (amended) at `alpha = 0`. -/
theorem c9_witness :
    (0:ℚ) ≤ 0 ∧ unigrams oneCorpus 0 START_TOKEN = some 1 ∧
    ((1:ℚ) + (3:ℚ) * 0 ≠ 0) ∧
    get_probability "b" START_TOKEN (unigrams oneCorpus 0) (bigrams oneCorpus 0) 0 3
      = some (((getOr0 (bigrams oneCorpus 0 (START_TOKEN, "b")) : ℚ) + 0)
          / ((1:ℚ) + (3:ℚ) * 0)) :=
  ⟨by decide, by decide, by simp,
   c9_no_alpha_validation "b" START_TOKEN (unigrams oneCorpus 0)
     (bigrams oneCorpus 0) 0 3 1 (by decide) (by decide) (by simp)⟩

/-- C10: for every training corpus (the empty one included) the vocabulary
contains both boundary tokens, hence has size at least `2`; consequently
for any `alpha > 0` and any context present in `UnigramCounts` the
denominator `UnigramCounts[context] + |Vocabulary| * alpha` is strictly
positive and `get_probability` never takes its division-by-zero branch. -/
theorem c10_vocab_boundary (corpus : List String) (minf : Nat) :
    START_TOKEN ∈ vocab corpus minf ∧ STOP_TOKEN ∈ vocab corpus minf ∧
    2 ≤ (vocab corpus minf).length ∧
    ∀ (alpha : ℚ) (c : String) (u : Nat), 0 < alpha →
      unigrams corpus minf c = some u →
      (0:ℚ) < (u:ℚ) + ((vocab corpus minf).length : ℚ) * alpha ∧
      ∀ target, get_probability target c (unigrams corpus minf)
        (bigrams corpus minf) alpha (vocab corpus minf).length ≠ none := by
  refine ⟨start_mem_vocab corpus minf, stop_mem_vocab corpus minf,
    two_le_vocab_length corpus minf, ?_⟩
  intro alpha c u ha h
  have hV : 1 ≤ (vocab corpus minf).length :=
    le_trans (by norm_num) (two_le_vocab_length corpus minf)
  have hpos := denom_pos u (vocab corpus minf).length alpha ha hV
  refine ⟨hpos, fun target => ?_⟩
  rw [get_probability_eq target c _ _ alpha _ u h (ne_of_gt hpos)]
  simp

/-- Witness for C10 on a concrete corpus, configuration and context. -/
theorem c10_witness :
    (0:ℚ) < 1 ∧ unigrams oneCorpus 0 "a" = some 1 ∧
    ((0:ℚ) < (1:ℚ) + ((vocab oneCorpus 0).length : ℚ) * 1 ∧
     ∀ target, get_probability target "a" (unigrams oneCorpus 0)
       (bigrams oneCorpus 0) 1 (vocab oneCorpus 0).length ≠ none) :=
  ⟨by decide, by decide,
   (c10_vocab_boundary oneCorpus 0).2.2.2 1 "a" 1 (by decide) (by decide)⟩

/-- C3 counterexample: the claim quantifies over every context token, but
for a context never seen in training `get_probability` raises (returns
`none`) instead of returning a strictly positive probability, even with
`alpha > 0` and a nonempty vocabulary. -/
theorem c3_counterexample :
    get_probability "a" "zzz" (unigrams oneCorpus 0) (bigrams oneCorpus 0) 1 3
      = none := by decide

/-- C3 (amended): for every target token and every context token that has
a unigram entry — after training on a nonempty corpus this covers every
context in the vocabulary, hence every pair in Vocabulary × Vocabulary —
the probability is strictly positive for `alpha > 0`. -/
theorem c3_positivity (corpus : List String) (minf : Nat) (alpha : ℚ)
    (t c : String) (ha : 0 < alpha) (hc : corpus ≠ [])
    (hmem : c ∈ vocab corpus minf) :
    ∃ p, get_probability t c (unigrams corpus minf) (bigrams corpus minf)
      alpha (vocab corpus minf).length = some p ∧ 0 < p := by
  obtain ⟨u, hu⟩ := vocab_unigrams_isSome corpus minf c hc hmem
  have hV : 1 ≤ (vocab corpus minf).length :=
    le_trans (by norm_num) (two_le_vocab_length corpus minf)
  refine ⟨_, get_probability_eq t c _ _ alpha _ u hu
    (ne_of_gt (denom_pos u _ alpha ha hV)), ?_⟩
  exact get_probability_pos _ u _ alpha ha hV

/-- Witness for C3 (amended) on the one-line corpus with context `"a"`. -/
theorem c3_witness :
    (0:ℚ) < 1 ∧ oneCorpus ≠ [] ∧ "a" ∈ vocab oneCorpus 0 ∧
    ∃ p, get_probability "q" "a" (unigrams oneCorpus 0) (bigrams oneCorpus 0)
      1 (vocab oneCorpus 0).length = some p ∧ 0 < p :=
  ⟨by decide, by decide, by decide,
   c3_positivity oneCorpus 0 1 "q" "a" (by decide) (by decide) (by decide)⟩

theorem sum_map_ratio (l : List String) (g : String → Nat) (alpha D : ℚ) :
    (l.map (fun t => ((g t : ℚ) + alpha) / D)).sum
      = (((l.map g).sum : ℚ) + (l.length : ℚ) * alpha) / D := by
  induction l with
  | nil => simp
  | cons a l ih =>
    simp only [List.map_cons, List.sum_cons, ih, List.length_cons]
    rw [div_add_div_same]
    push_cast
    ring_nf

/-- C4: for every context with a unigram entry whose bigram counts over
the vocabulary sum to exactly its unigram count, the probabilities of all
vocabulary targets sum to exactly `1` (in exact rational arithmetic), for
any `alpha > 0`. -/
theorem c4_normalization (corpus : List String) (minf : Nat) (alpha : ℚ)
    (c : String) (u : Nat) (ha : 0 < alpha)
    (h : unigrams corpus minf c = some u)
    (hsum : ((vocab corpus minf).map
        (fun t => getOr0 (bigrams corpus minf (c, t)))).sum = u) :
    ((vocab corpus minf).map
        (fun t => (get_probability t c (unigrams corpus minf)
            (bigrams corpus minf) alpha (vocab corpus minf).length).getD 0)).sum
      = 1 := by
  have hV : 1 ≤ (vocab corpus minf).length :=
    le_trans (by norm_num) (two_le_vocab_length corpus minf)
  have hD := denom_pos u (vocab corpus minf).length alpha ha hV
  have hmap : (vocab corpus minf).map
      (fun t => (get_probability t c (unigrams corpus minf)
          (bigrams corpus minf) alpha (vocab corpus minf).length).getD 0)
      = (vocab corpus minf).map
        (fun t => ((getOr0 (bigrams corpus minf (c, t)) : ℚ) + alpha)
            / ((u:ℚ) + ((vocab corpus minf).length : ℚ) * alpha)) := by
    apply List.map_congr_left
    intro t _
    rw [get_probability_eq t c _ _ alpha _ u h (ne_of_gt hD)]
    rfl
  rw [hmap, sum_map_ratio, hsum]
  exact div_self (ne_of_gt hD)

/-- Witness for C4 on the scenario corpus with context `"the"`: its bigram
counts `(the,cat) = 1` and `(the,dog) = 1` sum to its unigram count `2`. -/
theorem c4_witness :
    (0:ℚ) < 1 ∧ unigrams toyCorpus 0 "the" = some 2 ∧
    ((vocab toyCorpus 0).map
        (fun t => getOr0 (bigrams toyCorpus 0 ("the", t)))).sum = 2 ∧
    ((vocab toyCorpus 0).map
        (fun t => (get_probability t "the" (unigrams toyCorpus 0)
            (bigrams toyCorpus 0) 1 (vocab toyCorpus 0).length).getD 0)).sum = 1 :=
  ⟨by decide, by decide, by decide,
   c4_normalization toyCorpus 0 1 "the" 2 (by decide) (by decide) (by decide)⟩

theorem get_probability_isSome (target c : String) (uni : UniDict)
    (big : BiDict) (alpha : ℚ) (V u : Nat) (h : uni c = some u)
    (ha : 0 < alpha) (hV : 1 ≤ V) :
    (get_probability target c uni big alpha V).isSome := by
  rw [get_probability_eq target c uni big alpha V u h
    (ne_of_gt (denom_pos u V alpha ha hV))]
  rfl

/-- C8 counterexample: the generator does not exclude `START_TOKEN` from
being sampled — with the model trained on the scenario corpus, the step
relation of `generate_headline` can append `START_TOKEN` to the initial
sequence, because `START_TOKEN` is in `vocab` and its smoothed probability
given the context `START_TOKEN` is `(0 + alpha)/(2 + 7*alpha) > 0`. -/
theorem c8_counterexample :
    GenReach (unigrams toyCorpus 0) (bigrams toyCorpus 0) 1 (vocab toyCorpus 0)
      ([START_TOKEN] ++ [START_TOKEN]) := by
  have hu : unigrams toyCorpus 0 START_TOKEN = some 2 := by decide
  have hV : 1 ≤ (vocab toyCorpus 0).length := by decide
  refine GenReach.step [START_TOKEN] START_TOKEN START_TOKEN GenReach.init rfl
    (by decide) ?_ (by decide) ?_
  · intro x hx
    exact get_probability_isSome x START_TOKEN _ _ 1 _ 2 hu (by norm_num) hV
  · refine ⟨_, get_probability_eq START_TOKEN START_TOKEN _ _ 1 _ 2 hu
      (ne_of_gt (denom_pos 2 _ 1 (by norm_num) hV)), ?_⟩
    exact get_probability_pos _ 2 _ 1 (by norm_num) hV

/-- C8 (amended): `START_TOKEN` is never excluded from the candidate list:
from any reachable generator state whose last token is a non-STOP
vocabulary token, the generator can take a step that appends
`START_TOKEN`, since `START_TOKEN` is in `vocab` and every vocabulary word
— `START_TOKEN` included — has strictly positive sampling probability. -/
theorem c8_start_samplable (corpus : List String) (minf : Nat) (alpha : ℚ)
    (s : List String) (c : String) (ha : 0 < alpha) (hc : corpus ≠ [])
    (hreach : GenReach (unigrams corpus minf) (bigrams corpus minf) alpha
      (vocab corpus minf) s)
    (hlast : s.getLast? = some c) (hnotstop : c ≠ STOP_TOKEN)
    (hcmem : c ∈ vocab corpus minf) :
    GenReach (unigrams corpus minf) (bigrams corpus minf) alpha
      (vocab corpus minf) (s ++ [START_TOKEN]) := by
  obtain ⟨u, hu⟩ := vocab_unigrams_isSome corpus minf c hc hcmem
  have hV : 1 ≤ (vocab corpus minf).length :=
    le_trans (by norm_num) (two_le_vocab_length corpus minf)
  refine GenReach.step s c START_TOKEN hreach hlast hnotstop ?_
    (start_mem_vocab corpus minf) ?_
  · intro x hx
    exact get_probability_isSome x c _ _ alpha _ u hu ha hV
  · refine ⟨_, get_probability_eq START_TOKEN c _ _ alpha _ u hu
      (ne_of_gt (denom_pos u _ alpha ha hV)), ?_⟩
    exact get_probability_pos _ u _ alpha ha hV

/-- Witness for C8 (amended): from the initial state `[START]` of the
model trained on the one-line corpus, the generator can append `START`. -/
theorem c8_witness :
    (0:ℚ) < 1 ∧ ([START_TOKEN] : List String).getLast? = some START_TOKEN ∧
    GenReach (unigrams oneCorpus 0) (bigrams oneCorpus 0) 1 (vocab oneCorpus 0)
      ([START_TOKEN] ++ [START_TOKEN]) :=
  ⟨by decide, rfl,
   c8_start_samplable oneCorpus 0 1 [START_TOKEN] START_TOKEN (by decide)
     (by decide) GenReach.init rfl (by decide) (by decide)⟩

/-! ### Splitting and joining lemmas -/

theorem splitCharsBy_exists_cons (p : Char → Bool) (l : List Char) :
    ∃ t ts, splitCharsBy p l = t :: ts := by
  cases l with
  | nil => exact ⟨"", [], rfl⟩
  | cons c cs =>
    unfold splitCharsBy
    cases h : splitCharsBy p cs with
    | nil => exact ⟨"", [], rfl⟩
    | cons t ts =>
      by_cases hc : p c
      · exact ⟨"", t :: ts, by simp [hc]⟩
      · exact ⟨String.mk (c :: t.data), ts, by simp [hc]⟩

theorem splitCharsBy_ne_nil (p : Char → Bool) (l : List Char) :
    splitCharsBy p l ≠ [] := by
  obtain ⟨t, ts, h⟩ := splitCharsBy_exists_cons p l
  simp [h]

theorem splitCharsBy_cons_pos (p : Char → Bool) (c : Char) (cs : List Char)
    (hc : p c = true) :
    splitCharsBy p (c :: cs) = "" :: splitCharsBy p cs := by
  obtain ⟨t, ts, h⟩ := splitCharsBy_exists_cons p cs
  simp [splitCharsBy, h, hc]

theorem splitCharsBy_cons_neg (p : Char → Bool) (c : Char) (cs : List Char)
    (t : String) (ts : List String) (hc : p c = false)
    (h : splitCharsBy p cs = t :: ts) :
    splitCharsBy p (c :: cs) = String.mk (c :: t.data) :: ts := by
  simp [splitCharsBy, h, hc]

/-- Tokens produced by `splitCharsBy` contain no separator character. -/
theorem splitCharsBy_sep_free (p : Char → Bool) (l : List Char) :
    ∀ t ∈ splitCharsBy p l, ∀ c ∈ t.data, p c = false := by
  induction l with
  | nil =>
    intro t ht c hc
    simp [splitCharsBy] at ht
    subst ht
    simp at hc
  | cons a l ih =>
    intro t ht c hc
    obtain ⟨t₀, ts, h⟩ := splitCharsBy_exists_cons p l
    by_cases ha : p a
    · rw [splitCharsBy_cons_pos p a l ha] at ht
      rcases List.mem_cons.mp ht with rfl | ht'
      · simp at hc
      · exact ih t ht' c hc
    · have hfa : p a = false := by simpa using ha
      rw [splitCharsBy_cons_neg p a l t₀ ts hfa h] at ht
      rcases List.mem_cons.mp ht with rfl | ht'
      · rcases List.mem_cons.mp hc with rfl | hc₀
        · exact hfa
        · exact ih t₀ (h ▸ List.mem_cons_self t₀ ts) c hc₀
      · exact ih t (h ▸ List.mem_cons_of_mem t₀ ht') c hc

/-- Splitting a separator-free character list yields that single token. -/
theorem splitCharsBy_no_sep (p : Char → Bool) (l : List Char)
    (h : ∀ c ∈ l, p c = false) :
    splitCharsBy p l = [String.mk l] := by
  induction l with
  | nil => rfl
  | cons a l ih =>
    have ha : p a = false := h a (List.mem_cons_self a l)
    have hrest := ih (fun c hc => h c (List.mem_cons_of_mem a hc))
    rw [splitCharsBy_cons_neg p a l (String.mk l) [] ha hrest]

/-- Splitting `l₁ ++ sep :: l₂` where `l₁` is separator-free: the first
token is `l₁` and the rest is the splitting of `l₂`. -/
theorem splitCharsBy_append_sep (p : Char → Bool) (l₁ l₂ : List Char)
    (c₀ : Char) (h₁ : ∀ c ∈ l₁, p c = false) (hc : p c₀ = true) :
    splitCharsBy p (l₁ ++ c₀ :: l₂) = String.mk l₁ :: splitCharsBy p l₂ := by
  induction l₁ with
  | nil =>
    simp only [List.nil_append]
    exact splitCharsBy_cons_pos p c₀ l₂ hc
  | cons a l₁ ih =>
    have ha : p a = false := h₁ a (List.mem_cons_self a l₁)
    have hrest := ih (fun c hcm => h₁ c (List.mem_cons_of_mem a hcm))
    simp only [List.cons_append]
    rw [splitCharsBy_cons_neg p a (l₁ ++ c₀ :: l₂) (String.mk l₁)
      (splitCharsBy p l₂) ha hrest]

/-- `joinSpace` then `splitOnSpace` is the identity on nonempty lists of
space-free tokens (Python: `" ".join(l).split(" ") == l`). -/
theorem splitOnSpace_joinSpace (l : List String) (hne : l ≠ [])
    (hfree : ∀ t ∈ l, ∀ c ∈ t.data, c ≠ ' ') :
    splitOnSpace (joinSpace l) = l := by
  induction l with
  | nil => exact absurd rfl hne
  | cons t ts ih =>
    cases ts with
    | nil =>
      show splitCharsBy (fun c => c = ' ') (joinSpace [t]).data = [t]
      have hj : joinSpace [t] = t := rfl
      rw [hj, splitCharsBy_no_sep]
      intro c hc
      exact decide_eq_false (hfree t (List.mem_cons_self t []) c hc)
    | cons t₂ ts₂ =>
      have hdata : (joinSpace (t :: t₂ :: ts₂)).data
          = t.data ++ ' ' :: (joinSpace (t₂ :: ts₂)).data := by
        show (t ++ " " ++ joinSpace (t₂ :: ts₂)).data = _
        simp
      have hrec := ih (by simp)
        (fun u hu c hc => hfree u (List.mem_cons_of_mem t hu) c hc)
      show splitCharsBy (fun c => c = ' ') (joinSpace (t :: t₂ :: ts₂)).data
        = t :: t₂ :: ts₂
      rw [hdata, splitCharsBy_append_sep _ _ _ _
        (fun c hc => decide_eq_false (hfree t (List.mem_cons_self t (t₂ :: ts₂)) c hc))
        (by simp)]
      rw [show splitCharsBy (fun c => c = ' ') (joinSpace (t₂ :: ts₂)).data
        = splitOnSpace (joinSpace (t₂ :: ts₂)) from rfl, hrec]

/-! ### Rare-word collapsing lemmas -/

theorem low_freq_true_iff (corpus : List String) (minf : Nat) (t : String) :
    low_freq corpus minf t = true
      ↔ (0 < uniTotal corpus t ∧ uniTotal corpus t ≤ minf) := by
  unfold low_freq
  cases h : all_words corpus t with
  | none =>
    have h0 : uniTotal corpus t = 0 := (all_words_none corpus t).mp h
    simp [h0]
  | some c =>
    have hc : c = uniTotal corpus t := by
      have hg := all_words_getOr0 corpus t
      rw [h] at hg
      simpa [getOr0] using hg
    have hpos : uniTotal corpus t ≠ 0 := by
      intro h0
      rw [(all_words_none corpus t).mpr h0] at h
      exact Option.noConfusion h
    subst hc
    simp only [decide_eq_true_eq]
    omega

theorem mem_wrap_of_mem_split (text : String) (t : String)
    (h : t ∈ splitOnSpace text) : t ∈ wrapTokens text := by
  simp [wrapTokens, h]

theorem mem_split_of_mem_wrap (text : String) (t : String)
    (h : t ∈ wrapTokens text) :
    t = START_TOKEN ∨ t = STOP_TOKEN ∨ t ∈ splitOnSpace text := by
  simp only [wrapTokens, List.append_assoc, List.cons_append, List.nil_append,
    List.mem_cons, List.mem_append] at h
  rcases h with h | h | h | h
  · exact Or.inl h
  · exact Or.inr (Or.inr h)
  · exact Or.inr (Or.inl h)
  · simp at h

theorem exists_line_of_uniTotal_pos (lines : List String) (t : String)
    (h : 0 < uniTotal lines t) : ∃ line ∈ lines, t ∈ wrapTokens line := by
  unfold uniTotal at h
  induction lines with
  | nil => simp at h
  | cons line lines ih =>
    simp only [List.map_cons, List.sum_cons] at h
    by_cases h0 : 0 < (wrapTokens line).count t
    · exact ⟨line, List.mem_cons_self line lines, List.count_pos_iff.mp h0⟩
    · have : 0 < (lines.map (fun h => (wrapTokens h).count t)).sum := by omega
      obtain ⟨l, hl, hm⟩ := ih this
      exact ⟨l, List.mem_cons_of_mem line hl, hm⟩

theorem unk_space_free : ∀ c ∈ UNK_TOKEN.data, c ≠ ' ' := by decide

theorem unk_ne_start : UNK_TOKEN ≠ START_TOKEN := by decide

theorem unk_ne_stop : UNK_TOKEN ≠ STOP_TOKEN := by decide

/-- The tokens of a line rewritten by `replace_text_train` are exactly the
original tokens with the `low_freq` ones replaced by `UNK_TOKEN`, provided
the line splits identically with and without empty pieces. -/
theorem clean_line_tokens (corpus : List String) (minf : Nat) (line : String)
    (heq : splitOnSpace line = splitWs line) :
    splitOnSpace (replace_text_train corpus minf line)
      = (splitOnSpace line).map
          (fun t => if low_freq corpus minf t then UNK_TOKEN else t) := by
  unfold replace_text_train
  rw [← heq]
  apply splitOnSpace_joinSpace
  · intro hmap
    exact splitCharsBy_ne_nil _ _ (List.map_eq_nil_iff.mp hmap)
  · intro u hu c hc
    obtain ⟨t, ht, rfl⟩ := List.mem_map.mp hu
    by_cases hl : low_freq corpus minf t
    · rw [if_pos hl] at hc
      exact unk_space_free c hc
    · rw [if_neg hl] at hc
      have := splitCharsBy_sep_free (fun c => c = ' ') line.data t ht c hc
      simpa using this

/-- C7 counterexample: on the corpus `["", "a b"]` with `min_freq = 1` the
empty-string token (produced by `"".split(" ") == [""]`) has pre-collapse
count `1 ≤ min_freq`, yet `replace_text_train` (which uses `text.split()`)
never sees it, so it is not replaced by UNKNOWN and it remains in the
vocabulary — refuting both universal parts of the claim. -/
theorem c7_counterexample :
    getOr0 (all_words ["", "a b"] "") = 1 ∧
    replace_text_train ["", "a b"] 1 "" = "" ∧
    "" ∈ vocab ["", "a b"] 1 := by decide

/-- C7 (amended): for corpora whose lines consist of ordinary word tokens
(no empty-string tokens — i.e. single spaces only — and no reserved
tokens), exactly the tokens whose pre-collapse unigram count is
`≤ min_freq` are replaced by UNKNOWN in the rewritten corpus; the
vocabulary excludes those rare tokens individually and includes UNKNOWN as
soon as one rare token occurrence exists; in particular, with
`min_freq = 1` on `["a b", "a c"]`, `"a"` (count 2) is kept while `"b"`
and `"c"` (count 1) are collapsed, so the vocabulary contains UNKNOWN and
neither `"b"` nor `"c"`. -/
theorem c7_rare_collapsing (corpus : List String) (minf : Nat)
    (hwf : ∀ line ∈ corpus, splitOnSpace line = splitWs line ∧
      ∀ t ∈ splitOnSpace line,
        t ≠ START_TOKEN ∧ t ≠ STOP_TOKEN ∧ t ≠ UNK_TOKEN) :
    (∀ line ∈ corpus, splitOnSpace (replace_text_train corpus minf line)
        = (splitOnSpace line).map (fun t =>
            if getOr0 (all_words corpus t) ≤ minf then UNK_TOKEN else t))
    ∧ (∀ t, 1 ≤ getOr0 (all_words corpus t) → getOr0 (all_words corpus t) ≤ minf →
        t ≠ START_TOKEN → t ≠ STOP_TOKEN → t ∉ vocab corpus minf)
    ∧ ((∃ line ∈ corpus, ∃ t ∈ splitOnSpace line,
          getOr0 (all_words corpus t) ≤ minf) → UNK_TOKEN ∈ vocab corpus minf)
    ∧ (replace_text_train ["a b", "a c"] 1 "a b" = "a <UNK>"
        ∧ replace_text_train ["a b", "a c"] 1 "a c" = "a <UNK>"
        ∧ UNK_TOKEN ∈ vocab ["a b", "a c"] 1
        ∧ "a" ∈ vocab ["a b", "a c"] 1
        ∧ "b" ∉ vocab ["a b", "a c"] 1
        ∧ "c" ∉ vocab ["a b", "a c"] 1) := by
  have hpt : ∀ line ∈ corpus, ∀ t ∈ splitOnSpace line,
      (if low_freq corpus minf t then UNK_TOKEN else t)
        = (if getOr0 (all_words corpus t) ≤ minf then UNK_TOKEN else t) := by
    intro line hline t ht
    have hpos : 0 < uniTotal corpus t :=
      uniTotal_pos_of_mem corpus line t hline (mem_wrap_of_mem_split line t ht)
    have hcnt : getOr0 (all_words corpus t) = uniTotal corpus t :=
      all_words_getOr0 corpus t
    by_cases hle : uniTotal corpus t ≤ minf
    · rw [if_pos ((low_freq_true_iff corpus minf t).mpr ⟨hpos, hle⟩),
        if_pos (by omega)]
    · rw [if_neg (fun hl => hle ((low_freq_true_iff corpus minf t).mp hl).2),
        if_neg (by omega)]
  have h1 : ∀ line ∈ corpus, splitOnSpace (replace_text_train corpus minf line)
      = (splitOnSpace line).map (fun t =>
          if getOr0 (all_words corpus t) ≤ minf then UNK_TOKEN else t) := by
    intro line hline
    rw [clean_line_tokens corpus minf line (hwf line hline).1]
    exact List.map_congr_left (hpt line hline)
  refine ⟨h1, ?_, ?_, by decide⟩
  · intro t h1t h2t hS hE hmem
    rcases (mem_vocab_iff corpus minf t).mp hmem with h | h | ⟨cl, hcl, htc⟩
    · exact hE h
    · exact hS h
    · unfold headlines_clean at hcl
      obtain ⟨line, hline, rfl⟩ := List.mem_map.mp hcl
      rw [h1 line hline] at htc
      obtain ⟨t', ht', heq⟩ := List.mem_map.mp htc
      by_cases hle : getOr0 (all_words corpus t') ≤ minf
      · rw [if_pos hle] at heq
        subst heq
        rw [all_words_getOr0] at h1t
        obtain ⟨l₀, hl₀, hm₀⟩ :=
          exists_line_of_uniTotal_pos corpus UNK_TOKEN (by omega)
        rcases mem_split_of_mem_wrap l₀ UNK_TOKEN hm₀ with h | h | h
        · exact unk_ne_start h
        · exact unk_ne_stop h
        · exact ((hwf l₀ hl₀).2 UNK_TOKEN h).2.2 rfl
      · rw [if_neg hle] at heq
        subst heq
        exact hle h2t
  · rintro ⟨line, hline, t, ht, hrare⟩
    have hpos : 0 < uniTotal corpus t :=
      uniTotal_pos_of_mem corpus line t hline (mem_wrap_of_mem_split line t ht)
    have hle : uniTotal corpus t ≤ minf := by
      rw [all_words_getOr0] at hrare
      omega
    have hlf : low_freq corpus minf t = true :=
      (low_freq_true_iff corpus minf t).mpr ⟨hpos, hle⟩
    apply (mem_vocab_iff corpus minf UNK_TOKEN).mpr
    refine Or.inr (Or.inr ⟨replace_text_train corpus minf line, ?_, ?_⟩)
    · unfold headlines_clean
      exact List.mem_map.mpr ⟨line, hline, rfl⟩
    · rw [clean_line_tokens corpus minf line (hwf line hline).1]
      exact List.mem_map.mpr ⟨t, ht, by rw [if_pos hlf]⟩

/-- Witness for C7 (amended) on the corpus `["a b", "a c"]` with
`min_freq = 1` from the specification example. -/
theorem c7_witness :
    (∀ line ∈ (["a b", "a c"] : List String),
      splitOnSpace line = splitWs line ∧
      ∀ t ∈ splitOnSpace line,
        t ≠ START_TOKEN ∧ t ≠ STOP_TOKEN ∧ t ≠ UNK_TOKEN)
    ∧ ((∀ line ∈ (["a b", "a c"] : List String),
          splitOnSpace (replace_text_train ["a b", "a c"] 1 line)
            = (splitOnSpace line).map (fun t =>
                if getOr0 (all_words ["a b", "a c"] t) ≤ 1 then UNK_TOKEN else t))
        ∧ (∀ t, 1 ≤ getOr0 (all_words ["a b", "a c"] t) →
            getOr0 (all_words ["a b", "a c"] t) ≤ 1 →
            t ≠ START_TOKEN → t ≠ STOP_TOKEN → t ∉ vocab ["a b", "a c"] 1)
        ∧ ((∃ line ∈ (["a b", "a c"] : List String), ∃ t ∈ splitOnSpace line,
              getOr0 (all_words ["a b", "a c"] t) ≤ 1) →
            UNK_TOKEN ∈ vocab ["a b", "a c"] 1)
        ∧ (replace_text_train ["a b", "a c"] 1 "a b" = "a <UNK>"
            ∧ replace_text_train ["a b", "a c"] 1 "a c" = "a <UNK>"
            ∧ UNK_TOKEN ∈ vocab ["a b", "a c"] 1
            ∧ "a" ∈ vocab ["a b", "a c"] 1
            ∧ "b" ∉ vocab ["a b", "a c"] 1
            ∧ "c" ∉ vocab ["a b", "a c"] 1)) :=
  ⟨by decide, c7_rare_collapsing ["a b", "a c"] 1 (by decide)⟩

/-! ### Empty and punctuation-only lines -/

theorem stripPunct_all_punct (s : String) (h : ∀ c ∈ s.data, isPunct c) :
    stripPunct s = "" := by
  unfold stripPunct
  have hnil : s.data.filter (fun c => !(isPunct c)) = [] := by
    rw [List.filter_eq_nil_iff]
    intro c hc
    simp [h c hc]
  rw [hnil]

theorem firstLine_no_newline (s : String) (h : ∀ c ∈ s.data, c ≠ '\n') :
    firstLine s = s := by
  unfold firstLine
  have : s.data.takeWhile (fun c => c ≠ '\n') = s.data := by
    rw [List.takeWhile_eq_self_iff]
    intro c hc
    simp [h c hc]
  rw [this]

theorem preprocess_all_punct (s : String) (h : ∀ c ∈ s.data, isPunct c) :
    preprocess s = "" := by
  unfold preprocess
  rw [firstLine_no_newline s (fun c hc => by
    intro hceq
    have := h c hc
    rw [hceq] at this
    exact absurd this (by decide))]
  exact stripPunct_all_punct s h

theorem seqOpt_some_of_forall (l : List (Option ℚ)) (Q : ℚ → Prop)
    (h : ∀ o ∈ l, ∃ x, o = some x ∧ Q x) :
    ∃ xs, seqOpt l = some xs ∧ (∀ x ∈ xs, Q x) ∧ xs.length = l.length := by
  induction l with
  | nil => exact ⟨[], rfl, by simp, rfl⟩
  | cons o l ih =>
    obtain ⟨x, rfl, hQ⟩ := h o (List.mem_cons_self o l)
    obtain ⟨xs, hxs, hQs, hlen⟩ := ih (fun o ho => h o (List.mem_cons_of_mem _ ho))
    refine ⟨x :: xs, ?_, ?_, by simp [hlen]⟩
    · simp [seqOpt, hxs]
    · intro y hy
      rcases List.mem_cons.mp hy with rfl | hy'
      · exact hQ
      · exact hQs y hy'

/-- C6 counterexample: the empty input line does not tokenize to
`[START, STOP]`: Python `"".split(" ")` is `[""]`, so boundary wrapping
yields the three-token sequence `[START, "", STOP]` containing an
empty-string token. -/
theorem c6_counterexample :
    wrapTokens (preprocess "") = [START_TOKEN, "", STOP_TOKEN] ∧
    wrapTokens (preprocess "") ≠ [START_TOKEN, STOP_TOKEN] := by decide

/-- C6 (amended): an empty or punctuation-only input line tokenizes and
boundary-wraps to `[START, "", STOP]` — an empty-string token is
produced.  Counting accepts this sequence (the empty token is counted like
any other), and perplexity scoring accepts it whenever the empty token has
a unigram entry, e.g. against a model whose training corpus contains such
a line. -/
theorem c6_empty_line (line : String) (hp : ∀ c ∈ line.data, isPunct c) :
    wrapTokens (preprocess line) = [START_TOKEN, "", STOP_TOKEN]
    ∧ (∀ d : UniDict, count_unigrams (preprocess line) d ""
        = some (getOr0 (d "") + 1))
    ∧ (∀ (minf : Nat) (alpha : ℚ), 0 < alpha →
        ∃ ps, probs_of (preprocess line) (unigrams [preprocess line] minf)
          (bigrams [preprocess line] minf) alpha
          (vocab [preprocess line] minf).length = some ps) := by
  have hstrip : preprocess line = "" := preprocess_all_punct line hp
  rw [hstrip]
  refine ⟨rfl, ?_, ?_⟩
  · intro d
    unfold count_unigrams
    rw [show wrapTokens "" = [START_TOKEN, "", STOP_TOKEN] from rfl]
    simp only [List.foldl_cons, List.foldl_nil]
    rw [uniStep_apply]
    rw [if_neg (show ¬("" = STOP_TOKEN) by decide)]
    rw [uniStep_apply]
    rw [if_pos rfl]
    rw [uniStep_apply]
    rw [if_neg (show ¬("" = START_TOKEN) by decide)]
  · intro minf alpha ha
    have hV : (vocab ([""] : List String) minf).length = 3 := rfl
    have hu1 : unigrams ([""] : List String) minf START_TOKEN = some 1 := rfl
    have hu2 : unigrams ([""] : List String) minf "" = some 1 := rfl
    have hD : ((1:Nat):ℚ) + ((vocab ([""] : List String) minf).length : ℚ) * alpha ≠ 0 := by
      rw [hV]
      exact ne_of_gt (denom_pos 1 3 alpha ha (by norm_num))
    have hall : ∀ o ∈ (pairsOf "").map (fun pr =>
        get_probability pr.2 pr.1 (unigrams ([""] : List String) minf)
          (bigrams ([""] : List String) minf) alpha
          (vocab ([""] : List String) minf).length),
        ∃ x, o = some x ∧ True := by
      intro o ho
      obtain ⟨pr, hpr, rfl⟩ := List.mem_map.mp ho
      have hpr2 : pr = (START_TOKEN, "") ∨ pr = ("", STOP_TOKEN) := by
        rw [show pairsOf "" = [(START_TOKEN, ""), ("", STOP_TOKEN)] from rfl] at hpr
        simpa using hpr
      rcases hpr2 with rfl | rfl
      · exact ⟨_, get_probability_eq "" START_TOKEN _ _ alpha _ 1 hu1 hD, trivial⟩
      · exact ⟨_, get_probability_eq STOP_TOKEN "" _ _ alpha _ 1 hu2 hD, trivial⟩
    unfold probs_of
    obtain ⟨xs, hxs, -, -⟩ := seqOpt_some_of_forall _ (fun _ => True) hall
    exact ⟨xs, hxs⟩

/-- Witness for C6 (amended) on the punctuation-only line `"!?"` with
`min_freq = 0` and `alpha = 1`. -/
theorem c6_witness :
    (∀ c ∈ ("!?" : String).data, isPunct c) ∧ (0:ℚ) < 1 ∧
    wrapTokens (preprocess "!?") = [START_TOKEN, "", STOP_TOKEN] ∧
    ∃ ps, probs_of (preprocess "!?") (unigrams [preprocess "!?"] 0)
      (bigrams [preprocess "!?"] 0) 1 (vocab [preprocess "!?"] 0).length
        = some ps :=
  ⟨by decide, by decide, (c6_empty_line "!?" (by decide)).1,
   (c6_empty_line "!?" (by decide)).2.2 0 1 (by decide)⟩

/-! ### Perplexity -/

/-- C5 counterexample: scoring the held-out line `"the zebra sat"` against
the model trained on the scenario corpus with `min_freq = 0` fails: no
training token was rare, so `UNK_TOKEN` is not in the vocabulary;
`replace_text_dev` still rewrites the unseen word to `"<UNK>"`, and the
pair `(<UNK>, sat)` then raises `KeyError` on `unigram_dict["<UNK>"]` —
the Evaluator crashes instead of returning a finite perplexity `≥ 1`. -/
theorem c5_counterexample :
    calculate_perplexity (replace_text_dev toyCorpus 0 "the zebra sat")
      (unigrams toyCorpus 0) (bigrams toyCorpus 0) 1 (vocab toyCorpus 0).length
      = none := by
  have hdev : replace_text_dev toyCorpus 0 "the zebra sat" = "the <UNK> sat" := by
    decide
  have hu_S : unigrams toyCorpus 0 START_TOKEN = some 2 := by decide
  have hu_the : unigrams toyCorpus 0 "the" = some 2 := by decide
  have hu_U : unigrams toyCorpus 0 "<UNK>" = none := by decide
  have hV : (vocab toyCorpus 0).length = 7 := by decide
  have hnone : get_probability "sat" "<UNK>" (unigrams toyCorpus 0)
      (bigrams toyCorpus 0) 1 (vocab toyCorpus 0).length = none := by
    unfold get_probability
    rw [hu_U]
  have hprobs : probs_of (replace_text_dev toyCorpus 0 "the zebra sat")
      (unigrams toyCorpus 0) (bigrams toyCorpus 0) 1 (vocab toyCorpus 0).length
      = none := by
    rw [hdev]
    unfold probs_of
    rw [show pairsOf "the <UNK> sat"
      = [(START_TOKEN, "the"), ("the", "<UNK>"), ("<UNK>", "sat"),
         ("sat", STOP_TOKEN)] from rfl]
    simp only [List.map_cons, List.map_nil]
    rw [get_probability_eq "the" START_TOKEN _ _ 1 _ 2 hu_S
      (by rw [hV]; norm_num)]
    rw [get_probability_eq "<UNK>" "the" _ _ 1 _ 2 hu_the
      (by rw [hV]; norm_num)]
    rw [hnone]
    simp [seqOpt]
  unfold calculate_perplexity
  rw [hprobs]
  rfl

/-- C5 (amended): for a held-out line, the Evaluator replaces each body
token absent from the vocabulary by UNKNOWN and scores the
boundary-wrapped result with `exp((Σ -log p)/numberOfPairs)`; provided
every token of that wrapped sequence has a unigram entry (which can fail,
e.g. for out-of-vocabulary words when UNKNOWN itself is not in the
vocabulary), the returned perplexity exists and is a finite real `≥ 1`,
for any `alpha > 0` and counts built from the training corpus. -/
theorem c5_perplexity_ge_one (corpus : List String) (minf : Nat) (alpha : ℚ)
    (line : String) (ha : 0 < alpha)
    (hctx : ∀ t ∈ wrapTokens (replace_text_dev corpus minf line),
      (unigrams corpus minf t).isSome) :
    ∃ r : ℝ, calculate_perplexity (replace_text_dev corpus minf line)
      (unigrams corpus minf) (bigrams corpus minf) alpha
      (vocab corpus minf).length = some r ∧ 1 ≤ r := by
  have hV : 1 ≤ (vocab corpus minf).length :=
    le_trans (by norm_num) (two_le_vocab_length corpus minf)
  have hall : ∀ o ∈ (pairsOf (replace_text_dev corpus minf line)).map
      (fun pr => get_probability pr.2 pr.1 (unigrams corpus minf)
        (bigrams corpus minf) alpha (vocab corpus minf).length),
      ∃ x, o = some x ∧ (0 < x ∧ x ≤ 1) := by
    intro o ho
    obtain ⟨pr, hpr, rfl⟩ := List.mem_map.mp ho
    obtain ⟨c, t⟩ := pr
    have hcmem : c ∈ wrapTokens (replace_text_dev corpus minf line) :=
      (List.of_mem_zip hpr).1
    obtain ⟨u, hu⟩ := Option.isSome_iff_exists.mp (hctx c hcmem)
    refine ⟨_, get_probability_eq t c _ _ alpha _ u hu
      (ne_of_gt (denom_pos u _ alpha ha hV)),
      get_probability_pos _ u _ alpha ha hV, ?_⟩
    have hbu : getOr0 (bigrams corpus minf (c, t)) ≤ u := by
      have hle := bigrams_le_unigrams corpus minf c t
      rw [hu] at hle
      simpa [getOr0] using hle
    exact get_probability_le_one _ u _ alpha ha hV hbu
  obtain ⟨ps, hps, hQ, hlen⟩ := seqOpt_some_of_forall _ _ hall
  refine ⟨Real.exp (((ps.map (fun p : ℚ => -Real.log (p:ℝ))).sum) / (ps.length : ℝ)),
    ?_, ?_⟩
  · unfold calculate_perplexity
    rw [show probs_of (replace_text_dev corpus minf line) (unigrams corpus minf)
      (bigrams corpus minf) alpha (vocab corpus minf).length = some ps from hps]
    rfl
  · have hsum : 0 ≤ (ps.map (fun p : ℚ => -Real.log (p:ℝ))).sum := by
      apply List.sum_nonneg
      intro x hx
      obtain ⟨p, hp, rfl⟩ := List.mem_map.mp hx
      obtain ⟨hp0, hp1⟩ := hQ p hp
      have hlog : Real.log (p:ℝ) ≤ 0 :=
        Real.log_nonpos (by exact_mod_cast hp0.le) (by exact_mod_cast hp1)
      linarith
    have hdiv : 0 ≤ ((ps.map (fun p : ℚ => -Real.log (p:ℝ))).sum) / (ps.length : ℝ) :=
      div_nonneg hsum (by positivity)
    calc (1:ℝ) = Real.exp 0 := Real.exp_zero.symm
      _ ≤ Real.exp _ := Real.exp_le_exp.mpr hdiv

/-- Witness for C5 (amended): the perplexity of the held-out line
`"the cat sat"` against the scenario model exists and is `≥ 1`. -/
theorem c5_witness :
    (0:ℚ) < 1 ∧
    (∀ t ∈ wrapTokens (replace_text_dev toyCorpus 0 "the cat sat"),
      (unigrams toyCorpus 0 t).isSome) ∧
    ∃ r : ℝ, calculate_perplexity (replace_text_dev toyCorpus 0 "the cat sat")
      (unigrams toyCorpus 0) (bigrams toyCorpus 0) 1 (vocab toyCorpus 0).length
      = some r ∧ 1 ≤ r :=
  ⟨by decide, by decide,
   c5_perplexity_ge_one toyCorpus 0 1 "the cat sat" (by decide) (by decide)⟩
